import Mathlib

/-!
Verification of the git-ai-cli core pipeline against its specification.

The Rust sources are shallowly embedded:
* `types.rs` / `utils/config.rs` — configuration record, defaults, layer
  reading and the three-layer merge (`get_merged_config`).
* `utils/ai.rs` — chat-completion request construction, response parsing
  (`generate_commit_message`, `generate_multiple_messages`), client
  validation (`AIClient::new`) and secret redaction (`redact_secrets`).
* `commands/commit.rs` / `commands/msg.rs` — diff truncation and the
  interactive review loop (`run`, `edit_message`).

External collaborators (filesystem, serde-JSON, the HTTP transport, the
terminal, the editor subprocess, git) are modelled as explicit parameters:
a config file is an `Option String` plus a parse oracle, the HTTP layer is
cut at the decoded `ChatCompletionResponse`, and the editor is a function
from the seeded buffer text to an outcome.

Strings are modelled by their character lists.  Rust `str::len` and byte
slicing agree with character counting on ASCII text; the regex calls in
`redact_secrets` use leftmost-first matching with greedy quantifiers, which
for the three patterns involved is exactly "replace each maximal matching
run", and is embedded as direct left-to-right scanners below.  Rust's
Unicode whitespace class is modelled by `Char.isWhitespace` (its ASCII
core).
-/

/-- Character class `[a-zA-Z0-9]` of the `sk-` regex in `redact_secrets`. -/
def isAl (c : Char) : Bool := c.isAlphanum

/-- Character class `[a-zA-Z0-9_-]` of the token regexes in `redact_secrets`. -/
def isTok (c : Char) : Bool := c.isAlphanum || c == '_' || c == '-'

/-- Regex class `\s` (whitespace), as used by the `Bearer` pattern and `trim`. -/
def isWsp (c : Char) : Bool := c.isWhitespace

/-- `GitAiError` from `error.rs`.  The `Io`/`Json` wrappers carry only their
rendered message here. -/
inductive GErr where
  | git (msg : String)
  | config (msg : String)
  | ai (msg : String)
  | io (msg : String)
  | json (msg : String)
  | http (msg : String)
  | invalidArgument (msg : String)
  | notInGitRepo
  | gitNotInstalled
  | noStagedChanges
  | userCancelled
  | other (msg : String)
deriving DecidableEq

/-- `AIConfig` from `types.rs`. -/
structure AIConfig where
  provider : String
  api_key : String
  base_url : String
  model : String
  agent_model : Option String
  locale : String
  custom_prompt : Option String
  enable_footer : Option Bool
deriving DecidableEq

/-- `impl Default for AIConfig` (`types.rs`, lines 49-62). -/
def AIConfig.default : AIConfig :=
  ⟨"", "", "", "", none, "en", none, some true⟩

/-- One overlay step of `ConfigManager::get_merged_config` (`config.rs`,
lines 120-170): the same eight per-field rules are written out twice in the
source, once for the local layer and once for the environment layer. -/
def overlayConfig (merged incoming : AIConfig) : AIConfig where
  provider := if incoming.provider ≠ "" then incoming.provider else merged.provider
  api_key := if incoming.api_key ≠ "" then incoming.api_key else merged.api_key
  base_url := if incoming.base_url ≠ "" then incoming.base_url else merged.base_url
  model := if incoming.model ≠ "" then incoming.model else merged.model
  agent_model := if incoming.agent_model.isSome then incoming.agent_model else merged.agent_model
  locale := if incoming.locale ≠ "" ∧ incoming.locale ≠ "en" then incoming.locale else merged.locale
  custom_prompt :=
    if incoming.custom_prompt.isSome then incoming.custom_prompt else merged.custom_prompt
  enable_footer :=
    if incoming.enable_footer.isSome then incoming.enable_footer else merged.enable_footer

/-- `ConfigManager::get_merged_config` (`config.rs`, lines 113-173), as a
function of the three already-read layers: start from global, overlay the
local layer, then overlay the environment layer. -/
def get_merged_config (global loc env : AIConfig) : AIConfig :=
  overlayConfig (overlayConfig global loc) env

/-- `ConfigManager::read_global_config` (`config.rs`, lines 29-40).  The
filesystem is the `file` argument (`none` = the path does not exist) and
serde-JSON is the `parse` oracle (`none` = malformed input). -/
def read_global_config (file : Option String) (parse : String → Option AIConfig) :
    Except GErr AIConfig :=
  match file with
  | none => .ok AIConfig.default
  | some content =>
    match parse content with
    | some config => .ok config
    | none => .error (.config "Invalid global config JSON")

/-- `ConfigManager::read_local_config` (`config.rs`, lines 43-54). -/
def read_local_config (file : Option String) (parse : String → Option AIConfig) :
    Except GErr AIConfig :=
  match file with
  | none => .ok AIConfig.default
  | some content =>
    match parse content with
    | some config => .ok config
    | none => .error (.config "Invalid local config JSON")

/-- Spec-side selector for plain string fields: the highest-priority layer
(environment > local > global) whose value is non-empty. -/
def pickStr (env loc global : String) : String :=
  if env ≠ "" then env else if loc ≠ "" then loc else global

/-- Spec-side selector for optional fields: the highest-priority layer whose
value is present. -/
def pickOpt (env loc global : Option String) : Option String :=
  if env.isSome then env else if loc.isSome then loc else global

/-- Spec-side selector for optional boolean fields. -/
def pickOptBool (env loc global : Option Bool) : Option Bool :=
  if env.isSome then env else if loc.isSome then loc else global

/-- Spec-side selector for the locale: a layer "defines" the locale only when
its value is non-empty and differs from the fixed default code `"en"`. -/
def pickLocale (env loc global : String) : String :=
  if env ≠ "" ∧ env ≠ "en" then env
  else if loc ≠ "" ∧ loc ≠ "en" then loc
  else global

/-- Replacement text of the `sk-[a-zA-Z0-9]{20,}` rule: `"sk-****..."`. -/
def skMask : List Char := ['s', 'k', '-', '*', '*', '*', '*', '.', '.', '.']

/-- The literal `['s','k','-']` prefix required by the `sk-` rule. -/
def skPat : List Char := ['s', 'k', '-']

/-- The literal `"Bearer"` required by the bearer-token rule. -/
def bearerLit : List Char := ['B', 'e', 'a', 'r', 'e', 'r']

/-- Replacement text of the bearer-token rule: `"Bearer ****..."`. -/
def bearerMask : List Char :=
  ['B', 'e', 'a', 'r', 'e', 'r', ' ', '*', '*', '*', '*', '.', '.', '.']

/-- The four-star infill used by the long-token mask. -/
def stars : List Char := ['*', '*', '*', '*']

/-- First redaction rule (`ai.rs` lines 216-220 / `config.rs` lines 231-235):
`replace_all` of `sk-[a-zA-Z0-9]{20,}` by `"sk-****..."`.  A match at a
position is the literal `sk-` followed by at least 20 alphanumerics; the
greedy quantifier consumes the whole alphanumeric run. -/
def rule1 : List Char → List Char
  | [] => []
  | c :: cs =>
    if (c :: cs).take 3 = skPat ∧ 20 ≤ (((c :: cs).drop 3).takeWhile isAl).length then
      skMask ++ rule1 (((c :: cs).drop 3).dropWhile isAl)
    else
      c :: rule1 cs
termination_by l => l.length
decreasing_by
  · calc (((c :: cs).drop 3).dropWhile isAl).length
        ≤ ((c :: cs).drop 3).length := (List.dropWhile_sublist isAl).length_le
      _ < (c :: cs).length := by simp [List.length_drop]; omega
  · simp

/-- Second redaction rule (`ai.rs` lines 222-226): `replace_all` of
`Bearer\s+[a-zA-Z0-9_-]{20,}` by `"Bearer ****..."`.  A match is the literal
`Bearer`, a non-empty whitespace run, then at least 20 token characters;
both quantifiers are greedy and consume their maximal runs. -/
def rule2 : List Char → List Char
  | [] => []
  | c :: cs =>
    if (c :: cs).take 6 = bearerLit ∧
        1 ≤ (((c :: cs).drop 6).takeWhile isWsp).length ∧
        20 ≤ ((((c :: cs).drop 6).dropWhile isWsp).takeWhile isTok).length then
      bearerMask ++ rule2 ((((c :: cs).drop 6).dropWhile isWsp).dropWhile isTok)
    else
      c :: rule2 cs
termination_by l => l.length
decreasing_by
  · calc ((((c :: cs).drop 6).dropWhile isWsp).dropWhile isTok).length
        ≤ (((c :: cs).drop 6).dropWhile isWsp).length := (List.dropWhile_sublist isTok).length_le
      _ ≤ ((c :: cs).drop 6).length := (List.dropWhile_sublist isWsp).length_le
      _ < (c :: cs).length := by simp [List.length_drop]; omega
  · simp

/-- The closure of the long-token rule (`ai.rs` lines 231-238): keep the
first 3 and last 3 characters around a fixed `****` infill; a run of at most
6 characters is replaced by `****` outright. -/
def maskRun (run : List Char) : List Char :=
  if 6 < run.length then run.take 3 ++ stars ++ run.drop (run.length - 3) else stars

/-- Third redaction rule (`ai.rs` lines 229-239 / `config.rs` lines 238-248):
`replace_all` of `([a-zA-Z0-9_-]{24,})` by the `maskRun` closure.  Matches
are exactly the maximal token-character runs of length at least 24. -/
def rule3 : List Char → List Char
  | [] => []
  | c :: cs =>
    if isTok c then
      if 24 ≤ (c :: cs.takeWhile isTok).length then
        maskRun (c :: cs.takeWhile isTok) ++ rule3 (cs.dropWhile isTok)
      else
        (c :: cs.takeWhile isTok) ++ rule3 (cs.dropWhile isTok)
    else
      c :: rule3 cs
termination_by l => l.length
decreasing_by
  · calc (cs.dropWhile isTok).length
        ≤ cs.length := (List.dropWhile_sublist isTok).length_le
      _ < (c :: cs).length := by simp
  · calc (cs.dropWhile isTok).length
        ≤ cs.length := (List.dropWhile_sublist isTok).length_le
      _ < (c :: cs).length := by simp
  · simp

/-- `AIClient::redact_secrets` (`ai.rs`, lines 213-242): the three rules in
order. -/
def AIClient_redact_secrets (input : String) : String :=
  String.mk (rule3 (rule2 (rule1 input.data)))

/-- `ConfigManager::redact_secrets` (`config.rs`, lines 228-251): the `sk-`
rule then the long-token rule (no bearer rule). -/
def ConfigManager_redact_secrets (input : String) : String :=
  String.mk (rule3 (rule1 input.data))

/-- The diff character budget (`commit.rs` lines 79-82 / `msg.rs` lines
31-34): the parsed `GIT_AI_MAX_DIFF_CHARS` override if present, else 5000. -/
def maxDiffChars (override : Option Nat) : Nat := override.getD 5000

/-- The truncation step (`commit.rs` lines 84-88 / `msg.rs` lines 36-40):
a hard cut at the budget with a flag recording whether anything was cut. -/
def truncateDiff (diff : List Char) (budget : Nat) : List Char × Bool :=
  if budget < diff.length then (diff.take budget, true) else (diff, false)

/-- `ChatMessage` from `ai.rs`. -/
structure ChatMessage where
  role : String
  content : String
deriving DecidableEq

/-- `ChatCompletionRequest` from `ai.rs`.  The `f32` temperature is a
rational constant here (no arithmetic is ever performed on it). -/
structure ChatCompletionRequest where
  model : String
  messages : List ChatMessage
  temperature : Option ℚ
  max_tokens : Option Nat
  stream : Option Bool
deriving DecidableEq

/-- `Choice` from `ai.rs`. -/
structure Choice where
  message : ChatMessage
  finish_reason : Option String
deriving DecidableEq

/-- `ChatCompletionResponse` from `ai.rs`. -/
structure ChatCompletionResponse where
  choices : List Choice
deriving DecidableEq

/-- The request built by `AIClient::generate_commit_message` (`ai.rs`,
lines 89-106). -/
def generate_commit_message_request (model system_prompt user_prompt : String) :
    ChatCompletionRequest :=
  ⟨model, [⟨"system", system_prompt⟩, ⟨"user", user_prompt⟩], some (7 / 10), some 500, none⟩

/-- The request built by `AIClient::generate_multiple_messages` (`ai.rs`,
lines 149-169): the count only enters the user prompt text. -/
def generate_multiple_messages_request (model system_prompt user_prompt : String) (count : Nat) :
    ChatCompletionRequest :=
  ⟨model,
    [⟨"system", system_prompt⟩,
      ⟨"user", user_prompt ++ "\n\nGenerate " ++ toString count ++
        " different commit messages separated by '---'."⟩],
    some (8 / 10), some 1000, none⟩

/-- The response handling of `AIClient::generate_commit_message` (`ai.rs`,
lines 130-139), starting from the decoded response. -/
def generate_commit_message_result (resp : ChatCompletionResponse) : Except GErr String :=
  match resp.choices with
  | [] => .error (.ai "No choices in response")
  | c :: _ => .ok c.message.content

/-- Rust `str::split("---")`: cut at each leftmost non-overlapping
occurrence of the delimiter. -/
def splitOn3 : List Char → List (List Char)
  | '-' :: '-' :: '-' :: rest => [] :: splitOn3 rest
  | c :: rest =>
    match splitOn3 rest with
    | [] => [[c]]
    | seg :: segs => (c :: seg) :: segs
  | [] => [[]]

/-- Rust `str::trim`: strip leading and trailing whitespace. -/
def trimL (l : List Char) : List Char :=
  ((l.dropWhile isWsp).reverse.dropWhile isWsp).reverse

/-- `str::trim` on strings. -/
def trimS (s : String) : String := String.mk (trimL s.data)

/-- The split step of `AIClient::generate_multiple_messages` (`ai.rs`,
lines 202-207): split on `"---"`, trim each segment, drop empty segments. -/
def split_messages (content : String) : List String :=
  (((splitOn3 content.data).map trimL).filter (fun seg => seg ≠ [])).map String.mk

set_option linter.unusedVariables false in
/-- The response handling of `AIClient::generate_multiple_messages`
(`ai.rs`, lines 193-209), starting from the decoded response.  The requested
`count` plays no role in parsing. -/
def generate_multiple_messages_result (count : Nat) (resp : ChatCompletionResponse) :
    Except GErr (List String) :=
  match resp.choices with
  | [] => .error (.ai "No choices in response")
  | c :: _ => .ok (split_messages c.message.content)

/-- `AIClient::new` (`ai.rs`, lines 63-81).  The reqwest client build is
modelled as succeeding. -/
def AIClient_new (config : AIConfig) : Except GErr AIConfig :=
  if config.provider = "" then .error (.config "Provider not configured")
  else if config.api_key = "" ∧ config.provider ≠ "ollama" ∧ config.provider ≠ "lm-studio" then
    .error (.config "API key not configured")
  else .ok config

/-- Behaviour of the external editor subprocess, as a function of the text
the temporary file was seeded with. -/
inductive EdOutcome where
  | spawnFail
  | exitNonZero
  | saves (text : String)

/-- The four options of the interactive review loop (`commit.rs` line 217). -/
inductive UserChoice where
  | commit
  | edit
  | regenerate
  | cancel

/-- `edit_message` (`commit.rs`, lines 274-317): seed a temp file with the
current message, run the editor, fail on spawn failure or non-zero exit,
otherwise return the saved file contents. -/
def edit_message (original : String) (editor : String → EdOutcome) : Except GErr String :=
  match editor original with
  | .spawnFail => .error (.other "Failed to open editor")
  | .exitNonZero => .error (.other "Editor exited with error")
  | .saves edited => .ok edited

/-- Terminal result of the review loop. -/
inductive LoopResult where
  | committed (msg : String)
  | err (e : GErr)
  | outOfEvents
deriving DecidableEq

/-- The interactive loop of `commands/commit.rs::run` (lines 196-271).
Each event supplies the user's menu selection, the editor behaviour for that
iteration, and the candidate list a `Regenerate` would produce.  The second
component of the result counts the interactive option prompts shown.
`none` models the undefined result of indexing `current_messages[0]` on an
empty candidate list (a Rust panic). -/
def reviewLoop (yes : Bool)
    (events : List (UserChoice × (String → EdOutcome) × List String))
    (cands : List String) : Option (LoopResult × Nat) :=
  if yes then
    (cands[0]?).map (fun m => (LoopResult.committed m, 0))
  else
    match events with
    | [] => some (LoopResult.outOfEvents, 0)
    | (choice, ed, newCands) :: rest =>
      match choice with
      | .commit => (cands[0]?).map (fun m => (LoopResult.committed m, 1))
      | .edit =>
        (cands[0]?).bind (fun c0 =>
          match edit_message c0 ed with
          | .error e => some (LoopResult.err e, 1)
          | .ok edited =>
            if trimS edited ≠ "" then some (LoopResult.committed edited, 1)
            else some (LoopResult.err GErr.userCancelled, 1))
      | .regenerate => (reviewLoop yes rest newCands).map (fun r => (r.1, r.2 + 1))
      | .cancel => some (LoopResult.err GErr.userCancelled, 1)

/-- `w` occurs at the start of `l`. -/
def PreSeg (w l : List Char) : Prop := ∃ v, l = w ++ v

/-- `w` occurs at the end of `l`. -/
def SufSeg (w l : List Char) : Prop := ∃ u, l = u ++ w

/-- `w` occurs contiguously somewhere inside `l`. -/
def SubSeg (w l : List Char) : Prop := ∃ u v, l = u ++ w ++ v

/-- Every character is alphanumeric. -/
def allAl (t : List Char) : Prop := ∀ c ∈ t, isAl c = true

/-- Every character is a token character. -/
def allTok (t : List Char) : Prop := ∀ c ∈ t, isTok c = true

/-- Every character is whitespace. -/
def allWsp (t : List Char) : Prop := ∀ c ∈ t, isWsp c = true

/-- No `*` occurs. -/
def noStar (w : List Char) : Prop := '*' ∉ w

/-- No occurrence of a `rule1` match (`sk-` then 20 alphanumerics). -/
def P1 (x : List Char) : Prop :=
  ¬ ∃ t, t.length = 20 ∧ allAl t ∧ SubSeg (skPat ++ t) x

/-- No occurrence of a `rule2` match (`Bearer`, whitespace, 20 token chars). -/
def P2 (x : List Char) : Prop :=
  ¬ ∃ u t, u ≠ [] ∧ allWsp u ∧ t.length = 20 ∧ allTok t ∧ SubSeg (bearerLit ++ (u ++ t)) x

/-- Every contiguous all-token run has length at most 23 (no `rule3` match). -/
def P3 (x : List Char) : Prop :=
  ∀ w, SubSeg w x → allTok w → w.length ≤ 23

/-- C1: merge precedence.  For every triple of layer records, each merged
field is the value of the highest-priority layer (environment > local >
global) that defines it: non-empty for string fields, present for optional
fields, and, for `locale` only, non-empty and different from the default
code `"en"` — so a higher layer whose locale is `"en"` never replaces a
non-default locale from a lower layer. -/
theorem merge_precedence (global loc env : AIConfig) :
    (get_merged_config global loc env).provider
        = pickStr env.provider loc.provider global.provider ∧
    (get_merged_config global loc env).api_key
        = pickStr env.api_key loc.api_key global.api_key ∧
    (get_merged_config global loc env).base_url
        = pickStr env.base_url loc.base_url global.base_url ∧
    (get_merged_config global loc env).model = pickStr env.model loc.model global.model ∧
    (get_merged_config global loc env).agent_model
        = pickOpt env.agent_model loc.agent_model global.agent_model ∧
    (get_merged_config global loc env).locale = pickLocale env.locale loc.locale global.locale ∧
    (get_merged_config global loc env).custom_prompt
        = pickOpt env.custom_prompt loc.custom_prompt global.custom_prompt ∧
    (get_merged_config global loc env).enable_footer
        = pickOptBool env.enable_footer loc.enable_footer global.enable_footer :=
  ⟨rfl, rfl, rfl, rfl, rfl, rfl, rfl, rfl⟩

/-- C3: diff truncation.  The budget defaults to 5000 and is overridable; a
diff longer than the budget is hard-cut to exactly the budget with the
truncated flag set; a diff within the budget is returned unchanged with the
flag clear. -/
theorem diff_truncation (diff : List Char) (budget : Nat) :
    maxDiffChars none = 5000 ∧
    (budget < diff.length →
      (truncateDiff diff budget).1.length = budget ∧ (truncateDiff diff budget).2 = true) ∧
    (diff.length ≤ budget →
      (truncateDiff diff budget).1 = diff ∧ (truncateDiff diff budget).2 = false) := by
  refine ⟨rfl, ?_, ?_⟩
  · intro h
    unfold truncateDiff
    rw [if_pos h]
    exact ⟨by simp [List.length_take]; omega, rfl⟩
  · intro h
    unfold truncateDiff
    rw [if_neg (Nat.not_lt.mpr h)]
    exact ⟨rfl, rfl⟩

/-- Witness for C3 at a six-character diff with budget 5 and a two-character
diff with budget 5. -/
theorem diff_truncation_witness :
    (5 < (['a', 'b', 'c', 'd', 'e', 'f'] : List Char).length ∧
      (truncateDiff ['a', 'b', 'c', 'd', 'e', 'f'] 5).1.length = 5 ∧
      (truncateDiff ['a', 'b', 'c', 'd', 'e', 'f'] 5).2 = true) ∧
    ((['a', 'b'] : List Char).length ≤ 5 ∧
      (truncateDiff ['a', 'b'] 5).1 = ['a', 'b'] ∧ (truncateDiff ['a', 'b'] 5).2 = false) :=
  ⟨⟨by decide, (diff_truncation ['a', 'b', 'c', 'd', 'e', 'f'] 5).2.1 (by decide)⟩,
    ⟨by decide, (diff_truncation ['a', 'b'] 5).2.2 (by decide)⟩⟩

/-- C4: multi-message split.  With a non-empty choice list, the result is
`Ok` of the split/trimmed/non-empty segments of the first choice's content —
independent of the requested count, with no error when fewer segments than
requested remain — and on `"msg1---msg2---  ---msg3"` the split yields
exactly `["msg1", "msg2", "msg3"]`. -/
theorem multi_message_split (resp : ChatCompletionResponse) (c : Choice) (rest : List Choice)
    (count count' : Nat) :
    (resp.choices = c :: rest →
      generate_multiple_messages_result count resp = .ok (split_messages c.message.content) ∧
      ∀ m ∈ split_messages c.message.content, m ≠ "") ∧
    generate_multiple_messages_result count resp = generate_multiple_messages_result count' resp ∧
    split_messages "msg1---msg2---  ---msg3" = ["msg1", "msg2", "msg3"] := by
  refine ⟨?_, ?_, by decide⟩
  · intro h
    constructor
    · simp [generate_multiple_messages_result, h]
    intro m hm
    simp only [split_messages, List.mem_map, List.mem_filter] at hm
    obtain ⟨seg, ⟨hseg, hne⟩, rfl⟩ := hm
    have hne2 : seg ≠ [] := by simpa using hne
    intro hcontra
    exact hne2 (by simpa using congrArg String.data hcontra)
  · obtain ⟨choices⟩ := resp
    cases choices <;> rfl

/-- Witness for C4 at a one-choice response whose content is
`"msg1---msg2---  ---msg3"`. -/
theorem multi_message_split_witness :
    generate_multiple_messages_result 3
        ⟨[⟨⟨"assistant", "msg1---msg2---  ---msg3"⟩, none⟩]⟩ =
      .ok ["msg1", "msg2", "msg3"] := by
  have H := multi_message_split ⟨[⟨⟨"assistant", "msg1---msg2---  ---msg3"⟩, none⟩]⟩
    ⟨⟨"assistant", "msg1---msg2---  ---msg3"⟩, none⟩ [] 3 3
  rw [(H.1 rfl).1, H.2.2]

/-- C5 counterexample: when the editor exits with non-zero status the
session ends with the unstructured `Other("Editor exited with error")`
error, not with `UserCancelled` as the claim states. -/
theorem edit_nonzero_exit_not_user_cancelled :
    reviewLoop false [(UserChoice.edit, fun _ => EdOutcome.exitNonZero, [])] ["feat: add login"] =
      some (.err (.other "Editor exited with error"), 1) ∧
    GErr.other "Editor exited with error" ≠ GErr.userCancelled :=
  ⟨rfl, by decide⟩

/-- C5 (amended): choosing `Edit` runs the editor seeded with candidate 0;
a non-empty edited text commits that exact text; an empty or
whitespace-only result cancels with `UserCancelled`; a non-zero editor
exit (or a spawn failure) fails with an `Other` error — not `UserCancelled`
— and in every non-commit case no commit is performed. -/
theorem edit_transition_characterization (c0 : String) (cs : List String)
    (ed : String → EdOutcome)
    (rest : List (UserChoice × (String → EdOutcome) × List String)) (newCands : List String) :
    (∀ t, ed c0 = .saves t → trimS t ≠ "" →
      reviewLoop false ((UserChoice.edit, ed, newCands) :: rest) (c0 :: cs) =
        some (.committed t, 1)) ∧
    (∀ t, ed c0 = .saves t → trimS t = "" →
      reviewLoop false ((UserChoice.edit, ed, newCands) :: rest) (c0 :: cs) =
        some (.err .userCancelled, 1)) ∧
    (ed c0 = .exitNonZero →
      reviewLoop false ((UserChoice.edit, ed, newCands) :: rest) (c0 :: cs) =
        some (.err (.other "Editor exited with error"), 1)) ∧
    (ed c0 = .spawnFail →
      reviewLoop false ((UserChoice.edit, ed, newCands) :: rest) (c0 :: cs) =
        some (.err (.other "Failed to open editor"), 1)) := by
  refine ⟨?_, ?_, ?_, ?_⟩
  · intro t h1 h2
    simp [reviewLoop, edit_message, h1, h2]
  · intro t h1 h2
    simp [reviewLoop, edit_message, h1, h2]
  · intro h
    simp [reviewLoop, edit_message, h]
  · intro h
    simp [reviewLoop, edit_message, h]

/-- Witness for C5's amended theorem: a non-empty edit commits the edited
text, a whitespace-only edit cancels with `UserCancelled`. -/
theorem edit_transition_witness :
    reviewLoop false [(UserChoice.edit, fun _ => EdOutcome.saves "edited message", [])] ["seed"] =
      some (.committed "edited message", 1) ∧
    reviewLoop false [(UserChoice.edit, fun _ => EdOutcome.saves "  ", [])] ["seed"] =
      some (.err .userCancelled, 1) :=
  ⟨(edit_transition_characterization "seed" [] (fun _ => EdOutcome.saves "edited message") [] []).1
      "edited message" rfl (by decide),
    (edit_transition_characterization "seed" [] (fun _ => EdOutcome.saves "  ") [] []).2.1
      "  " rfl (by decide)⟩

/-- C6 counterexample: a missing config file yields the `Default` record,
whose `locale` field is the non-empty `"en"` and whose `enable_footer`
field is present — so the returned record is not "all-empty". -/
theorem missing_file_default_not_all_empty :
    read_global_config none (fun _ => none) = .ok AIConfig.default ∧
    AIConfig.default.locale ≠ "" ∧ AIConfig.default.enable_footer ≠ none :=
  ⟨rfl, by decide, by decide⟩

/-- C6 (amended): reading a layer whose file is missing returns the built-in
`Default` record — string fields empty and `agent_model`/`custom_prompt`
absent, but `locale = "en"` and `enable_footer = some true` — and reading a
layer whose file exists but is malformed fails with a `ConfigError`. -/
theorem read_layer_missing_or_malformed (parse : String → Option AIConfig) (content : String) :
    read_global_config none parse = .ok AIConfig.default ∧
    read_local_config none parse = .ok AIConfig.default ∧
    AIConfig.default = ⟨"", "", "", "", none, "en", none, some true⟩ ∧
    (parse content = none →
      read_global_config (some content) parse = .error (.config "Invalid global config JSON") ∧
      read_local_config (some content) parse = .error (.config "Invalid local config JSON")) := by
  refine ⟨rfl, rfl, rfl, ?_⟩
  intro h
  exact ⟨by simp [read_global_config, h], by simp [read_local_config, h]⟩

/-- Witness for C6's amended theorem at a parse oracle that rejects its
input. -/
theorem read_layer_witness :
    read_global_config (some "not json") (fun _ => none) =
      .error (.config "Invalid global config JSON") :=
  ((read_layer_missing_or_malformed (fun _ => none) "not json").2.2.2 rfl).1

/-- C7: a successful response whose single choice is only delimiters and
whitespace makes `generate_multiple_messages` return `Ok []`, and the
review loop's auto-accept, `Commit`, and `Edit` paths all index candidate 0
without a non-emptiness check, which on the empty candidate list has no
defined result (modelled as `none`). -/
theorem empty_candidates_unguarded_indexing :
    generate_multiple_messages_result 3 ⟨[⟨⟨"assistant", "--- ---"⟩, none⟩]⟩ = .ok [] ∧
    reviewLoop true [] [] = none ∧
    reviewLoop false [(UserChoice.commit, fun _ => EdOutcome.exitNonZero, [])] [] = none ∧
    reviewLoop false [(UserChoice.edit, fun _ => EdOutcome.exitNonZero, [])] [] = none :=
  ⟨rfl, rfl, rfl, rfl⟩

/-- C8: client construction succeeds exactly when the provider is non-empty
and either the API key is non-empty or the provider is a no-credential
local provider (`ollama` / `lm-studio`); otherwise it fails with a
`ConfigError`. -/
theorem client_construction_validation (config : AIConfig) :
    (AIClient_new config = .ok config ↔
      ¬(config.provider = "" ∨
        (config.api_key = "" ∧ config.provider ≠ "ollama" ∧ config.provider ≠ "lm-studio"))) ∧
    ((∃ msg, AIClient_new config = .error (.config msg)) ↔
      (config.provider = "" ∨
        (config.api_key = "" ∧ config.provider ≠ "ollama" ∧ config.provider ≠ "lm-studio"))) := by
  by_cases h1 : config.provider = ""
  · simp [AIClient_new, h1]
  · by_cases h2 : config.api_key = "" ∧ config.provider ≠ "ollama" ∧ config.provider ≠ "lm-studio"
    · simp [AIClient_new, h1, h2]
    · simp [AIClient_new, h1, h2]

/-- C9: `generate_commit_message` sends temperature 0.7 and a 500-token
cap; a response with zero choices fails with an `AiError`, and otherwise
the first choice's content is returned. -/
theorem generate_one (resp : ChatCompletionResponse) (model sys usr : String) :
    (generate_commit_message_request model sys usr).temperature = some (7 / 10) ∧
    (generate_commit_message_request model sys usr).max_tokens = some 500 ∧
    (resp.choices = [] →
      generate_commit_message_result resp = .error (.ai "No choices in response")) ∧
    (∀ c rest, resp.choices = c :: rest →
      generate_commit_message_result resp = .ok c.message.content) := by
  refine ⟨rfl, rfl, ?_, ?_⟩
  · intro h
    simp [generate_commit_message_result, h]
  · intro c rest h
    simp [generate_commit_message_result, h]

/-- Witness for C9 at a zero-choice response and a one-choice response. -/
theorem generate_one_witness :
    generate_commit_message_result ⟨[]⟩ = .error (.ai "No choices in response") ∧
    generate_commit_message_result ⟨[⟨⟨"assistant", "feat: x"⟩, none⟩]⟩ = .ok "feat: x" :=
  ⟨(generate_one ⟨[]⟩ "m" "s" "u").2.2.1 rfl,
    (generate_one ⟨[⟨⟨"assistant", "feat: x"⟩, none⟩]⟩ "m" "s" "u").2.2.2
      ⟨⟨"assistant", "feat: x"⟩, none⟩ [] rfl⟩

/-- C10: with the auto-accept flag set and a non-empty candidate set, the
loop immediately commits candidate 0's exact text with zero interactive
prompts; in particular `["feat: add login"]` commits that exact text. -/
theorem auto_accept (events : List (UserChoice × (String → EdOutcome) × List String))
    (c : String) (cs : List String) :
    reviewLoop true events (c :: cs) = some (.committed c, 0) ∧
    reviewLoop true [] ["feat: add login"] = some (.committed "feat: add login", 0) := by
  constructor
  · rw [reviewLoop.eq_def]
    simp
  · rfl

theorem subseg_nil {w : List Char} (h : SubSeg w []) : w = [] := by
  obtain ⟨u, v, h⟩ := h
  rcases List.append_eq_nil.mp h.symm with ⟨h1, -⟩
  exact (List.append_eq_nil.mp h1).2

theorem subseg_refl (l : List Char) : SubSeg l l := ⟨[], [], by simp⟩

theorem preseg_subseg {w l : List Char} (h : PreSeg w l) : SubSeg w l := by
  obtain ⟨v, hv⟩ := h
  exact ⟨[], v, by simp [hv]⟩

theorem sufseg_subseg {w l : List Char} (h : SufSeg w l) : SubSeg w l := by
  obtain ⟨u, hu⟩ := h
  exact ⟨u, [], by simp [hu]⟩

theorem subseg_cons_of {w l : List Char} {c : Char} (h : SubSeg w l) : SubSeg w (c :: l) := by
  obtain ⟨u, v, rfl⟩ := h
  exact ⟨c :: u, v, by simp⟩

theorem sufseg_cons_of {s a : List Char} {x : Char} (h : SufSeg s a) : SufSeg s (x :: a) := by
  obtain ⟨u, rfl⟩ := h
  exact ⟨x :: u, by simp⟩

theorem subseg_trans {w m l : List Char} (h1 : SubSeg w m) (h2 : SubSeg m l) : SubSeg w l := by
  obtain ⟨u1, v1, rfl⟩ := h1
  obtain ⟨u2, v2, rfl⟩ := h2
  exact ⟨u2 ++ u1, v1 ++ v2, by simp⟩

theorem preseg_trans {w m l : List Char} (h1 : PreSeg w m) (h2 : PreSeg m l) : PreSeg w l := by
  obtain ⟨v1, rfl⟩ := h1
  obtain ⟨v2, rfl⟩ := h2
  exact ⟨v1 ++ v2, by simp⟩

theorem sufseg_trans {w m l : List Char} (h1 : SufSeg w m) (h2 : SufSeg m l) : SufSeg w l := by
  obtain ⟨u1, rfl⟩ := h1
  obtain ⟨u2, rfl⟩ := h2
  exact ⟨u2 ++ u1, by simp⟩

theorem subseg_length_le {w l : List Char} (h : SubSeg w l) : w.length ≤ l.length := by
  obtain ⟨u, v, rfl⟩ := h
  simp only [List.length_append]
  omega

theorem subseg_mem {w l : List Char} {c : Char} (h : SubSeg w l) (hc : c ∈ w) : c ∈ l := by
  obtain ⟨u, v, rfl⟩ := h
  exact List.mem_append.mpr (Or.inl (List.mem_append.mpr (Or.inr hc)))

theorem preseg_append_cases {w a b : List Char} (h : PreSeg w (a ++ b)) :
    PreSeg w a ∨ ∃ p, w = a ++ p ∧ PreSeg p b := by
  induction a generalizing w with
  | nil =>
    right
    exact ⟨w, by simp, by simpa using h⟩
  | cons x a ih =>
    obtain ⟨v, hv⟩ := h
    cases w with
    | nil => exact Or.inl ⟨x :: a, by simp⟩
    | cons y w2 =>
      simp only [List.cons_append] at hv
      injection hv with h1 h2
      subst h1
      rcases ih ⟨v, h2⟩ with hc | ⟨p, hw, hp⟩
      · obtain ⟨v2, hv2⟩ := hc
        exact Or.inl ⟨v2, by simp [hv2]⟩
      · exact Or.inr ⟨p, by simp [hw], hp⟩

theorem subseg_append_cases {w a b : List Char} (h : SubSeg w (a ++ b)) :
    SubSeg w a ∨ SubSeg w b ∨
      ∃ s p, s ≠ [] ∧ p ≠ [] ∧ w = s ++ p ∧ SufSeg s a ∧ PreSeg p b := by
  induction a generalizing w with
  | nil => exact Or.inr (Or.inl (by simpa using h))
  | cons x a ih =>
    obtain ⟨u, v, huv⟩ := h
    cases u with
    | nil =>
      have hpre : PreSeg w ((x :: a) ++ b) := ⟨v, by simpa using huv⟩
      rcases preseg_append_cases hpre with hc | ⟨p, hw, hp⟩
      · exact Or.inl (preseg_subseg hc)
      · by_cases hp0 : p = []
        · subst hp0
          rw [List.append_nil] at hw
          exact Or.inl ⟨[], [], by simp [hw]⟩
        · exact Or.inr (Or.inr ⟨x :: a, p, by simp, hp0, hw, ⟨[], by simp⟩, hp⟩)
    | cons y u2 =>
      simp only [List.cons_append] at huv
      injection huv with h1 h2
      rcases ih ⟨u2, v, h2⟩ with hl | hr | ⟨s, p, hs, hp, hw, hsuf, hpre⟩
      · exact Or.inl (subseg_cons_of hl)
      · exact Or.inr (Or.inl hr)
      · exact Or.inr (Or.inr ⟨s, p, hs, hp, hw, sufseg_cons_of hsuf, hpre⟩)

theorem sufseg_preseg_subseg {s p a b : List Char} (hs : SufSeg s a) (hp : PreSeg p b) :
    SubSeg (s ++ p) (a ++ b) := by
  obtain ⟨u, rfl⟩ := hs
  obtain ⟨v, rfl⟩ := hp
  exact ⟨u, v, by simp⟩

theorem sufseg_singleton {s : List Char} {c : Char} (h : SufSeg s [c]) (hne : s ≠ []) :
    s = [c] := by
  obtain ⟨u, hu⟩ := h
  cases u with
  | nil => simpa using hu.symm
  | cons y u2 =>
    simp only [List.cons_append] at hu
    injection hu with h1 h2
    exact absurd (List.append_eq_nil.mp h2.symm).2 hne

theorem sufseg_last_mem {s q : List Char} {d : Char} (h : SufSeg s (q ++ [d])) (hne : s ≠ []) :
    d ∈ s := by
  obtain ⟨u, hu⟩ := h
  have hrev := congrArg List.reverse hu
  simp only [List.reverse_append, List.reverse_cons, List.reverse_nil, List.nil_append,
    List.cons_append] at hrev
  cases hs : s.reverse with
  | nil =>
    have : s = [] := by simpa using congrArg List.reverse hs
    exact absurd this hne
  | cons e t =>
    rw [hs] at hrev
    simp only [List.cons_append] at hrev
    injection hrev with h1 h2
    subst h1
    have : d ∈ s.reverse := by simp [hs]
    simpa using this

theorem eq_take_append {n : Nat} {l t : List Char} (h : l.take n = t) : ∃ r, l = t ++ r :=
  ⟨l.drop n, by rw [← h, List.take_append_drop]⟩

theorem altok_of_alal {t : List Char} (h : allAl t) : allTok t := by
  intro c hc
  have h2 : isAl c = true := h c hc
  simp only [isAl] at h2
  simp [isTok, h2]

theorem wsp_not_tok {c : Char} (h : isWsp c = true) : isTok c = false := by
  have h2 : ((c = ' ' ∨ c = '\t') ∨ c = '\r') ∨ c = '\n' := by
    simpa [isWsp, Char.isWhitespace] using h
  rcases h2 with ((rfl | rfl) | rfl) | rfl <;> decide

theorem tok_not_wsp {c : Char} (h : isTok c = true) : isWsp c = false := by
  cases hw : isWsp c
  · rfl
  · rw [wsp_not_tok hw] at h
    exact absurd h (by simp)

theorem allal_no_star {t : List Char} (h : allAl t) : '*' ∉ t := fun hm =>
  absurd (h '*' hm) (by decide)

theorem alltok_no_star {t : List Char} (h : allTok t) : '*' ∉ t := fun hm =>
  absurd (h '*' hm) (by decide)

theorem allwsp_no_star {t : List Char} (h : allWsp t) : '*' ∉ t := fun hm =>
  absurd (h '*' hm) (by decide)

theorem allal_no_dot {t : List Char} (h : allAl t) : '.' ∉ t := fun hm =>
  absurd (h '.' hm) (by decide)

theorem alltok_no_dot {t : List Char} (h : allTok t) : '.' ∉ t := fun hm =>
  absurd (h '.' hm) (by decide)

theorem allwsp_no_dot {t : List Char} (h : allWsp t) : '.' ∉ t := fun hm =>
  absurd (h '.' hm) (by decide)

theorem preseg_all_takeWhile {p : Char → Bool} {t l : List Char} (h : PreSeg t l)
    (hall : ∀ c ∈ t, p c = true) : t.length ≤ (l.takeWhile p).length := by
  obtain ⟨v, rfl⟩ := h
  rw [List.takeWhile_append_of_pos hall]
  simp

theorem takeWhile_pos_head {p : Char → Bool} {l : List Char}
    (h : 0 < (l.takeWhile p).length) : ∃ c l2, l = c :: l2 ∧ p c = true := by
  cases l with
  | nil => simp at h
  | cons c l2 =>
    cases hp : p c
    · rw [List.takeWhile_cons_of_neg (by simp [hp])] at h
      simp at h
    · exact ⟨c, l2, rfl, hp⟩

theorem dropWhile_cons_head {p : Char → Bool} {l r : List Char} {d : Char}
    (h : l.dropWhile p = d :: r) : p d = false := by
  have h2 := List.head_dropWhile_not p l (by simp [h])
  simpa [h] using h2

theorem takeWhile_all {p : Char → Bool} (l : List Char) : ∀ c ∈ l.takeWhile p, p c = true :=
  fun _ hc => List.mem_takeWhile_imp hc

theorem sk_match_shape {c : Char} {cs : List Char} (h : (c :: cs).take 3 = skPat) :
    ∃ r, c = 's' ∧ cs = 'k' :: '-' :: r ∧ (c :: cs).drop 3 = r := by
  obtain ⟨r, hr⟩ := eq_take_append h
  have hr2 : c :: cs = 's' :: 'k' :: '-' :: r := by simpa [skPat] using hr
  injection hr2 with h1 h2
  exact ⟨r, h1, h2, by simp [h1, h2]⟩

theorem bearer_match_shape {c : Char} {cs : List Char} (h : (c :: cs).take 6 = bearerLit) :
    ∃ r, c = 'B' ∧ cs = 'e' :: 'a' :: 'r' :: 'e' :: 'r' :: r ∧ (c :: cs).drop 6 = r := by
  obtain ⟨r, hr⟩ := eq_take_append h
  have hr2 : c :: cs = 'B' :: 'e' :: 'a' :: 'r' :: 'e' :: 'r' :: r := by simpa [bearerLit] using hr
  injection hr2 with h1 h2
  exact ⟨r, h1, h2, by simp [h1, h2]⟩

theorem rule1_cons_inv {y : List Char} {d : Char} {z : List Char}
    (h : rule1 y = d :: z) (hd : d ≠ 's') : ∃ y2, y = d :: y2 ∧ z = rule1 y2 := by
  cases y with
  | nil => simp [rule1] at h
  | cons c cs =>
    rw [rule1] at h
    by_cases hc : (c :: cs).take 3 = skPat ∧ 20 ≤ (((c :: cs).drop 3).takeWhile isAl).length
    · rw [if_pos hc] at h
      simp only [skMask, List.cons_append] at h
      injection h with h1 h2
      exact absurd h1.symm hd
    · rw [if_neg hc] at h
      injection h with h1 h2
      exact ⟨cs, by rw [h1], h2.symm⟩

theorem rule2_cons_inv {y : List Char} {d : Char} {z : List Char}
    (h : rule2 y = d :: z) (hd : d ≠ 'B') : ∃ y2, y = d :: y2 ∧ z = rule2 y2 := by
  cases y with
  | nil => simp [rule2] at h
  | cons c cs =>
    rw [rule2] at h
    by_cases hc : (c :: cs).take 6 = bearerLit ∧
        1 ≤ (((c :: cs).drop 6).takeWhile isWsp).length ∧
        20 ≤ ((((c :: cs).drop 6).dropWhile isWsp).takeWhile isTok).length
    · rw [if_pos hc] at h
      simp only [bearerMask, List.cons_append] at h
      injection h with h1 h2
      exact absurd h1.symm hd
    · rw [if_neg hc] at h
      injection h with h1 h2
      exact ⟨cs, by rw [h1], h2.symm⟩

theorem takeWhile_al_rule1_le (y : List Char) :
    ((rule1 y).takeWhile isAl).length ≤ (y.takeWhile isAl).length := by
  induction y using rule1.induct with
  | case1 => simp [rule1]
  | case2 c cs h ih =>
    rw [rule1, if_pos h]
    obtain ⟨r, rfl, rfl, -⟩ := sk_match_shape h.1
    have e1 : isAl 's' = true := by decide
    have e2 : isAl 'k' = true := by decide
    have e3 : isAl '-' = false := by decide
    simp [skMask, List.cons_append, List.takeWhile_cons, e1, e2, e3]
  | case3 c cs h ih =>
    rw [rule1, if_neg h]
    cases hc : isAl c
    · rw [List.takeWhile_cons_of_neg (by simp [hc]), List.takeWhile_cons_of_neg (by simp [hc])]
    · rw [List.takeWhile_cons_of_pos hc, List.takeWhile_cons_of_pos hc]
      simpa using ih

theorem takeWhile_tok_rule2_le (y : List Char) :
    ((rule2 y).takeWhile isTok).length ≤ (y.takeWhile isTok).length := by
  induction y using rule2.induct with
  | case1 => simp [rule2]
  | case2 c cs h ih =>
    rw [rule2, if_pos h]
    obtain ⟨r, rfl, rfl, hdrop⟩ := bearer_match_shape h.1
    rw [hdrop] at h
    obtain ⟨w0, r2, rfl, hw0⟩ := takeWhile_pos_head (Nat.lt_of_lt_of_le Nat.zero_lt_one h.2.1)
    have e1 : isTok 'B' = true := by decide
    have e2 : isTok 'e' = true := by decide
    have e3 : isTok 'a' = true := by decide
    have e4 : isTok 'r' = true := by decide
    have e5 : isTok ' ' = false := by decide
    have e6 : isTok w0 = false := wsp_not_tok hw0
    simp [bearerMask, List.cons_append, List.takeWhile_cons, e1, e2, e3, e4, e5, e6]
  | case3 c cs h ih =>
    rw [rule2, if_neg h]
    cases hc : isTok c
    · rw [List.takeWhile_cons_of_neg (by simp [hc]), List.takeWhile_cons_of_neg (by simp [hc])]
    · rw [List.takeWhile_cons_of_pos hc, List.takeWhile_cons_of_pos hc]
      simpa using ih

theorem preseg_cons_mem {p l : List Char} {d : Char} (h : PreSeg p (d :: l)) (hne : p ≠ []) :
    d ∈ p := by
  obtain ⟨v, hv⟩ := h
  cases p with
  | nil => exact absurd rfl hne
  | cons y p2 =>
    simp only [List.cons_append] at hv
    injection hv with h1 h2
    simp [h1]

theorem star_mem_eq {d : Char} (h : d ∈ stars) : d = '*' := by
  simpa [stars] using h

theorem preseg_rule3_nostar (x : List Char) :
    ∀ w, noStar w → PreSeg w (rule3 x) → PreSeg w x := by
  induction x using rule3.induct with
  | case1 =>
    intro w hw h
    rw [rule3] at h
    obtain ⟨v, hv⟩ := h
    exact ⟨[], by simp [(List.append_eq_nil.mp hv.symm).1]⟩
  | case2 c cs h1 h2 ih =>
    intro w hw h
    rw [rule3, if_pos h1, if_pos h2] at h
    have h6 : 6 < (c :: cs.takeWhile isTok).length := by omega
    unfold maskRun at h
    rw [if_pos h6] at h
    simp only [List.append_assoc] at h
    have t1 : PreSeg ((c :: cs.takeWhile isTok).take 3) (c :: cs.takeWhile isTok) :=
      ⟨(c :: cs.takeWhile isTok).drop 3, (List.take_append_drop _ _).symm⟩
    have t2 : PreSeg (c :: cs.takeWhile isTok) (c :: cs) :=
      ⟨cs.dropWhile isTok, by simp⟩
    rcases preseg_append_cases h with hA | ⟨p, hw_eq, hp⟩
    · exact preseg_trans (preseg_trans hA t1) t2
    · by_cases hp0 : p = []
      · subst hp0
        rw [List.append_nil] at hw_eq
        rw [hw_eq]
        exact preseg_trans t1 t2
      · exfalso
        simp only [stars, List.cons_append] at hp
        have hmem : '*' ∈ p := preseg_cons_mem hp hp0
        exact hw (by rw [hw_eq]; exact List.mem_append.mpr (Or.inr hmem))
  | case3 c cs h1 h2 ih =>
    intro w hw h
    rw [rule3, if_pos h1, if_neg h2] at h
    have t2 : PreSeg (c :: cs.takeWhile isTok) (c :: cs) :=
      ⟨cs.dropWhile isTok, by simp⟩
    rcases preseg_append_cases h with hA | ⟨p, hw_eq, hp⟩
    · exact preseg_trans hA t2
    · have hpns : noStar p := fun hm => hw (by rw [hw_eq]; exact List.mem_append.mpr (Or.inr hm))
      obtain ⟨v, hv⟩ := ih p hpns hp
      rw [hw_eq]
      refine ⟨v, ?_⟩
      calc c :: cs = (c :: cs.takeWhile isTok) ++ cs.dropWhile isTok := by simp
        _ = (c :: cs.takeWhile isTok) ++ (p ++ v) := by rw [hv]
        _ = ((c :: cs.takeWhile isTok) ++ p) ++ v := by simp [List.append_assoc]
  | case4 c cs h1 ih =>
    intro w hw h
    rw [rule3, if_neg h1] at h
    cases w with
    | nil => exact ⟨c :: cs, by simp⟩
    | cons y w2 =>
      obtain ⟨v, hv⟩ := h
      simp only [List.cons_append] at hv
      injection hv with hy hrest
      subst hy
      have hw2 : noStar w2 := fun hm => hw (by simp [hm])
      obtain ⟨v2, hv2⟩ := ih w2 hw2 ⟨v, hrest⟩
      exact ⟨v2, by simp [hv2]⟩

theorem subseg_rule3_nostar (x : List Char) :
    ∀ w, noStar w → SubSeg w (rule3 x) → SubSeg w x := by
  induction x using rule3.induct with
  | case1 =>
    intro w hw h
    rw [rule3] at h
    rw [subseg_nil h]
    exact ⟨[], [], rfl⟩
  | case2 c cs h1 h2 ih =>
    intro w hw h
    rw [rule3, if_pos h1, if_pos h2] at h
    have h6 : 6 < (c :: cs.takeWhile isTok).length := by omega
    unfold maskRun at h
    rw [if_pos h6] at h
    simp only [List.append_assoc] at h
    have hrunx : (c :: cs.takeWhile isTok) ++ cs.dropWhile isTok = c :: cs := by simp
    have hsubrun : ∀ w2, SubSeg w2 (c :: cs.takeWhile isTok) → SubSeg w2 (c :: cs) := fun w2 hs =>
      subseg_trans hs ⟨[], cs.dropWhile isTok, by simp⟩
    have hrest_sub : ∀ w2, SubSeg w2 (cs.dropWhile isTok) → SubSeg w2 (c :: cs) := fun w2 hs =>
      subseg_trans hs ⟨c :: cs.takeWhile isTok, [], by simp⟩
    have t1 : PreSeg ((c :: cs.takeWhile isTok).take 3) (c :: cs.takeWhile isTok) :=
      ⟨(c :: cs.takeWhile isTok).drop 3, (List.take_append_drop _ _).symm⟩
    have l1 : SufSeg ((c :: cs.takeWhile isTok).drop ((c :: cs.takeWhile isTok).length - 3))
        (c :: cs.takeWhile isTok) :=
      ⟨(c :: cs.takeWhile isTok).take ((c :: cs.takeWhile isTok).length - 3),
        (List.take_append_drop _ _).symm⟩
    rcases subseg_append_cases h with hA | hBC | ⟨s, p, hs, hp, hw_eq, hsuf, hpre⟩
    · exact hsubrun w (subseg_trans hA (preseg_subseg t1))
    · rcases subseg_append_cases hBC with hS | hLR | ⟨s, p, hs, hp, hw_eq, hsuf, hpre⟩
      · by_cases hw0 : w = []
        · subst hw0
          exact ⟨[], c :: cs, by simp⟩
        · exfalso
          obtain ⟨d, hd⟩ := List.exists_mem_of_ne_nil w hw0
          exact hw ((star_mem_eq (subseg_mem hS hd)) ▸ hd)
      · rcases subseg_append_cases hLR with hL | hR | ⟨s, p, hs, hp, hw_eq, hsuf, hpre⟩
        · exact hsubrun w (subseg_trans hL (sufseg_subseg l1))
        · exact hrest_sub w (ih w hw hR)
        · have hpns : noStar p := fun hm =>
            hw (by rw [hw_eq]; exact List.mem_append.mpr (Or.inr hm))
          have hp_rest := preseg_rule3_nostar (cs.dropWhile isTok) p hpns hpre
          have hsrun : SufSeg s (c :: cs.takeWhile isTok) := sufseg_trans hsuf l1
          rw [hw_eq]
          have := sufseg_preseg_subseg hsrun hp_rest
          rwa [hrunx] at this
      · exfalso
        obtain ⟨d, hd⟩ := List.exists_mem_of_ne_nil s hs
        have hds := star_mem_eq (subseg_mem (sufseg_subseg hsuf) hd)
        exact hw (by rw [hw_eq]; exact List.mem_append.mpr (Or.inl (hds ▸ hd)))
    · exfalso
      simp only [stars, List.cons_append] at hpre
      have hmem : '*' ∈ p := preseg_cons_mem hpre hp
      exact hw (by rw [hw_eq]; exact List.mem_append.mpr (Or.inr hmem))
  | case3 c cs h1 h2 ih =>
    intro w hw h
    rw [rule3, if_pos h1, if_neg h2] at h
    have hrunx : (c :: cs.takeWhile isTok) ++ cs.dropWhile isTok = c :: cs := by simp
    rcases subseg_append_cases h with hA | hR | ⟨s, p, hs, hp, hw_eq, hsuf, hpre⟩
    · exact subseg_trans hA ⟨[], cs.dropWhile isTok, by simp⟩
    · exact subseg_trans (ih w hw hR) ⟨c :: cs.takeWhile isTok, [], by simp⟩
    · have hpns : noStar p := fun hm => hw (by rw [hw_eq]; exact List.mem_append.mpr (Or.inr hm))
      have hp_rest := preseg_rule3_nostar (cs.dropWhile isTok) p hpns hpre
      rw [hw_eq]
      have := sufseg_preseg_subseg hsuf hp_rest
      rwa [hrunx] at this
  | case4 c cs h1 ih =>
    intro w hw h
    rw [rule3, if_neg h1] at h
    have h2 : SubSeg w ([c] ++ rule3 cs) := by simpa using h
    rcases subseg_append_cases h2 with hA | hR | ⟨s, p, hs, hp, hw_eq, hsuf, hpre⟩
    · cases w with
      | nil => exact ⟨[], c :: cs, by simp⟩
      | cons y w2 =>
        have hy : y = c := by simpa using subseg_mem hA (by simp)
        have hlen := subseg_length_le hA
        simp only [List.length_cons, List.length_nil] at hlen
        have hw2 : w2 = [] := List.eq_nil_of_length_eq_zero (by omega)
        subst hy
        subst hw2
        exact ⟨[], cs, by simp⟩
    · exact subseg_cons_of (ih w hw hR)
    · have hse : s = [c] := sufseg_singleton hsuf hs
      have hpns : noStar p := fun hm => hw (by rw [hw_eq]; exact List.mem_append.mpr (Or.inr hm))
      obtain ⟨v, hv⟩ := preseg_rule3_nostar cs p hpns hpre
      rw [hw_eq, hse]
      exact ⟨[], v, by simp [hv]⟩

theorem preseg_pred_cons_block {P : Char → Prop} {p B : List Char} {d : Char}
    (h : PreSeg p (d :: B)) (hall : ∀ c ∈ p, P c) (hd : ¬ P d) : p = [] := by
  cases p with
  | nil => rfl
  | cons y p2 => exact absurd (hall d (preseg_cons_mem h (by simp))) hd

theorem subseg_pred_cons_block {P : Char → Prop} {w B : List Char} {d : Char}
    (h : SubSeg w (d :: B)) (hall : ∀ c ∈ w, P c) (hd : ¬ P d) : w = [] ∨ SubSeg w B := by
  have h2 : SubSeg w ([d] ++ B) := by simpa using h
  rcases subseg_append_cases h2 with hA | hB | ⟨s, p, hs, hp, hw_eq, hsuf, hpre⟩
  · cases w with
    | nil => exact Or.inl rfl
    | cons y w2 =>
      have hy : y = d := by simpa using subseg_mem hA (by simp)
      exact absurd (hy ▸ hall y (by simp)) hd
  · exact Or.inr hB
  · have hse : s = [d] := sufseg_singleton hsuf hs
    exact absurd (hall d (by rw [hw_eq, hse]; simp)) hd

theorem preseg_rule2_alltok (x : List Char) :
    ∀ w, allTok w → PreSeg w (rule2 x) → PreSeg w x := by
  induction x using rule2.induct with
  | case1 =>
    intro w hw h
    rw [rule2] at h
    obtain ⟨v, hv⟩ := h
    exact ⟨[], by simp [(List.append_eq_nil.mp hv.symm).1]⟩
  | case2 c cs hcond ih =>
    intro w hw h
    rw [rule2, if_pos hcond] at h
    obtain ⟨r, rfl, rfl, hdrop⟩ := bearer_match_shape hcond.1
    rw [hdrop] at h
    have hmask : bearerMask ++ rule2 ((r.dropWhile isWsp).dropWhile isTok) =
        bearerLit ++ (' ' :: '*' :: '*' :: '*' :: '*' :: '.' :: '.' :: '.' ::
          rule2 ((r.dropWhile isWsp).dropWhile isTok)) := by
      simp [bearerMask, bearerLit]
    rw [hmask] at h
    have hblit : PreSeg bearerLit ('B' :: 'e' :: 'a' :: 'r' :: 'e' :: 'r' :: r) :=
      ⟨r, by simp [bearerLit]⟩
    rcases preseg_append_cases h with hA | ⟨p, hw_eq, hp⟩
    · exact preseg_trans hA hblit
    · have hpall : allTok p := fun ch hm =>
        hw ch (by rw [hw_eq]; exact List.mem_append.mpr (Or.inr hm))
      have hp0 : p = [] :=
        preseg_pred_cons_block (P := fun ch => isTok ch = true) hp hpall (by decide)
      subst hp0
      rw [List.append_nil] at hw_eq
      rw [hw_eq]
      exact hblit
  | case3 c cs hcond ih =>
    intro w hw h
    rw [rule2, if_neg hcond] at h
    cases w with
    | nil => exact ⟨c :: cs, by simp⟩
    | cons y w2 =>
      obtain ⟨v, hv⟩ := h
      simp only [List.cons_append] at hv
      injection hv with hy hrest
      subst hy
      have hw2 : allTok w2 := fun ch hm => hw ch (by simp [hm])
      obtain ⟨v2, hv2⟩ := ih w2 hw2 ⟨v, hrest⟩
      exact ⟨v2, by simp [hv2]⟩

theorem subseg_rule2_alltok (x : List Char) :
    ∀ w, allTok w → SubSeg w (rule2 x) → SubSeg w x := by
  induction x using rule2.induct with
  | case1 =>
    intro w hw h
    rw [rule2] at h
    rw [subseg_nil h]
    exact ⟨[], [], rfl⟩
  | case2 c cs hcond ih =>
    intro w hw h
    rw [rule2, if_pos hcond] at h
    obtain ⟨r, rfl, rfl, hdrop⟩ := bearer_match_shape hcond.1
    rw [hdrop] at h
    have hmask : bearerMask ++ rule2 ((r.dropWhile isWsp).dropWhile isTok) =
        bearerLit ++ (' ' :: '*' :: '*' :: '*' :: '*' :: '.' :: '.' :: '.' ::
          rule2 ((r.dropWhile isWsp).dropWhile isTok)) := by
      simp [bearerMask, bearerLit]
    rw [hmask] at h
    have hx : 'B' :: 'e' :: 'a' :: 'r' :: 'e' :: 'r' :: r = bearerLit ++ r := by simp [bearerLit]
    have hrest_sufseg : SufSeg ((r.dropWhile isWsp).dropWhile isTok)
        ('B' :: 'e' :: 'a' :: 'r' :: 'e' :: 'r' :: r) := by
      have s1 : SufSeg (r.dropWhile isWsp) r :=
        ⟨r.takeWhile isWsp, (List.takeWhile_append_dropWhile _ _).symm⟩
      have s2 : SufSeg ((r.dropWhile isWsp).dropWhile isTok) (r.dropWhile isWsp) :=
        ⟨(r.dropWhile isWsp).takeWhile isTok, (List.takeWhile_append_dropWhile _ _).symm⟩
      have s3 : SufSeg r ('B' :: 'e' :: 'a' :: 'r' :: 'e' :: 'r' :: r) := ⟨bearerLit, hx⟩
      exact sufseg_trans (sufseg_trans s2 s1) s3
    rw [hdrop] at ih
    rcases subseg_append_cases h with hA | hB | ⟨s, p, hs, hp, hw_eq, hsuf, hpre⟩
    · exact subseg_trans hA (preseg_subseg ⟨r, hx⟩)
    · rcases subseg_pred_cons_block (P := fun ch => isTok ch = true) hB hw (by decide)
        with rfl | hB1
      · exact ⟨[], 'B' :: 'e' :: 'a' :: 'r' :: 'e' :: 'r' :: r, by simp⟩
      rcases subseg_pred_cons_block (P := fun ch => isTok ch = true) hB1 hw (by decide)
        with rfl | hB2
      · exact ⟨[], 'B' :: 'e' :: 'a' :: 'r' :: 'e' :: 'r' :: r, by simp⟩
      rcases subseg_pred_cons_block (P := fun ch => isTok ch = true) hB2 hw (by decide)
        with rfl | hB3
      · exact ⟨[], 'B' :: 'e' :: 'a' :: 'r' :: 'e' :: 'r' :: r, by simp⟩
      rcases subseg_pred_cons_block (P := fun ch => isTok ch = true) hB3 hw (by decide)
        with rfl | hB4
      · exact ⟨[], 'B' :: 'e' :: 'a' :: 'r' :: 'e' :: 'r' :: r, by simp⟩
      rcases subseg_pred_cons_block (P := fun ch => isTok ch = true) hB4 hw (by decide)
        with rfl | hB5
      · exact ⟨[], 'B' :: 'e' :: 'a' :: 'r' :: 'e' :: 'r' :: r, by simp⟩
      rcases subseg_pred_cons_block (P := fun ch => isTok ch = true) hB5 hw (by decide)
        with rfl | hB6
      · exact ⟨[], 'B' :: 'e' :: 'a' :: 'r' :: 'e' :: 'r' :: r, by simp⟩
      rcases subseg_pred_cons_block (P := fun ch => isTok ch = true) hB6 hw (by decide)
        with rfl | hB7
      · exact ⟨[], 'B' :: 'e' :: 'a' :: 'r' :: 'e' :: 'r' :: r, by simp⟩
      rcases subseg_pred_cons_block (P := fun ch => isTok ch = true) hB7 hw (by decide)
        with rfl | hB8
      · exact ⟨[], 'B' :: 'e' :: 'a' :: 'r' :: 'e' :: 'r' :: r, by simp⟩
      exact subseg_trans (ih w hw hB8) (sufseg_subseg hrest_sufseg)
    · exact absurd
        (hw ' ' (by rw [hw_eq]; exact List.mem_append.mpr (Or.inr (preseg_cons_mem hpre hp))))
        (by decide)
  | case3 c cs hcond ih =>
    intro w hw h
    rw [rule2, if_neg hcond] at h
    have h2 : SubSeg w ([c] ++ rule2 cs) := by simpa using h
    rcases subseg_append_cases h2 with hA | hR | ⟨s, p, hs, hp, hw_eq, hsuf, hpre⟩
    · cases w with
      | nil => exact ⟨[], c :: cs, by simp⟩
      | cons y w2 =>
        have hy : y = c := by simpa using subseg_mem hA (by simp)
        have hlen := subseg_length_le hA
        simp only [List.length_cons, List.length_nil] at hlen
        have hw2 : w2 = [] := List.eq_nil_of_length_eq_zero (by omega)
        subst hy
        subst hw2
        exact ⟨[], cs, by simp⟩
    · exact subseg_cons_of (ih w hw hR)
    · have hse : s = [c] := sufseg_singleton hsuf hs
      have hpall : allTok p := fun ch hm =>
        hw ch (by rw [hw_eq]; exact List.mem_append.mpr (Or.inr hm))
      obtain ⟨v, hv⟩ := preseg_rule2_alltok cs p hpall hpre
      rw [hw_eq, hse]
      exact ⟨[], v, by simp [hv]⟩

theorem preseg_rule3_dropWhile_head {cs p : List Char}
    (hp : PreSeg p (rule3 (cs.dropWhile isTok))) (hne : p ≠ []) :
    ∃ d, isTok d = false ∧ d ∈ p := by
  cases hR : cs.dropWhile isTok with
  | nil =>
    rw [hR, rule3] at hp
    obtain ⟨v, hv⟩ := hp
    exact absurd (List.append_eq_nil.mp hv.symm).1 hne
  | cons d r2 =>
    have hd : isTok d = false := dropWhile_cons_head hR
    rw [hR, rule3, if_neg (by simp [hd])] at hp
    exact ⟨d, hd, preseg_cons_mem hp hne⟩

theorem rule3_bounds (x : List Char) : P3 (rule3 x) := by
  induction x using rule3.induct with
  | case1 =>
    intro w hsub htok
    rw [rule3] at hsub
    simp [subseg_nil hsub]
  | case2 c cs h1 h2 ih =>
    intro w hsub htok
    rw [rule3, if_pos h1, if_pos h2] at hsub
    have h6 : 6 < (c :: cs.takeWhile isTok).length := by omega
    unfold maskRun at hsub
    rw [if_pos h6] at hsub
    simp only [List.append_assoc] at hsub
    rcases subseg_append_cases hsub with hA | hBC | ⟨s, p, hs, hp, hw_eq, hsuf, hpre⟩
    · have hlen := subseg_length_le hA
      have hT : ((c :: cs.takeWhile isTok).take 3).length ≤ 3 := by simp [List.length_take]
      omega
    · simp only [stars, List.cons_append, List.nil_append] at hBC
      rcases subseg_pred_cons_block (P := fun ch => isTok ch = true) hBC htok (by decide)
        with rfl | hB1
      · simp
      rcases subseg_pred_cons_block (P := fun ch => isTok ch = true) hB1 htok (by decide)
        with rfl | hB2
      · simp
      rcases subseg_pred_cons_block (P := fun ch => isTok ch = true) hB2 htok (by decide)
        with rfl | hB3
      · simp
      rcases subseg_pred_cons_block (P := fun ch => isTok ch = true) hB3 htok (by decide)
        with rfl | hB4
      · simp
      rcases subseg_append_cases hB4 with hL | hR | ⟨s, p, hs, hp, hw_eq, hsuf, hpre⟩
      · have hlen := subseg_length_le hL
        have hL3 : ((c :: cs.takeWhile isTok).drop
            ((c :: cs.takeWhile isTok).length - 3)).length ≤ 3 := by
          simp only [List.length_drop]
          omega
        omega
      · exact ih w hR htok
      · obtain ⟨d, hd, hdp⟩ := preseg_rule3_dropWhile_head hpre hp
        exact absurd (htok d (by rw [hw_eq]; exact List.mem_append.mpr (Or.inr hdp)))
          (by simp [hd])
    · simp only [stars, List.cons_append] at hpre
      have hmem := preseg_cons_mem hpre hp
      exact absurd (htok '*' (by rw [hw_eq]; exact List.mem_append.mpr (Or.inr hmem)))
        (by decide)
  | case3 c cs h1 h2 ih =>
    intro w hsub htok
    rw [rule3, if_pos h1, if_neg h2] at hsub
    rcases subseg_append_cases hsub with hA | hR | ⟨s, p, hs, hp, hw_eq, hsuf, hpre⟩
    · have hlen := subseg_length_le hA
      omega
    · exact ih w hR htok
    · obtain ⟨d, hd, hdp⟩ := preseg_rule3_dropWhile_head hpre hp
      exact absurd (htok d (by rw [hw_eq]; exact List.mem_append.mpr (Or.inr hdp)))
        (by simp [hd])
  | case4 c cs h1 ih =>
    intro w hsub htok
    rw [rule3, if_neg h1] at hsub
    rcases subseg_pred_cons_block (P := fun ch => isTok ch = true) hsub htok h1 with rfl | hR
    · simp
    · exact ih w hR htok

theorem rule1_est (x : List Char) : P1 (rule1 x) := by
  induction x using rule1.induct with
  | case1 =>
    rintro ⟨t, hlen, hal, hsub⟩
    rw [rule1] at hsub
    have := subseg_nil hsub
    simp [skPat] at this
  | case2 c cs hcond ih =>
    rintro ⟨t, hlen, hal, hsub⟩
    rw [rule1, if_pos hcond] at hsub
    have htokw : allTok (skPat ++ t) := by
      intro ch hc
      rcases List.mem_append.mp hc with h1 | h2
      · simp only [skPat, List.mem_cons, List.not_mem_nil, or_false] at h1
        rcases h1 with rfl | rfl | rfl <;> decide
      · exact altok_of_alal hal ch h2
    have hmask : skMask ++ rule1 (((c :: cs).drop 3).dropWhile isAl) =
        skPat ++ ('*' :: '*' :: '*' :: '*' :: '.' :: '.' :: '.' ::
          rule1 (((c :: cs).drop 3).dropWhile isAl)) := by
      simp [skMask, skPat]
    rw [hmask] at hsub
    rcases subseg_append_cases hsub with hA | hB | ⟨s, p, hs, hp, hw_eq, hsuf, hpre⟩
    · have hlenle := subseg_length_le hA
      simp only [skPat, List.length_append, List.length_cons, List.length_nil, hlen] at hlenle
      omega
    · rcases subseg_pred_cons_block (P := fun ch => isTok ch = true) hB htokw (by decide)
        with hnil | hB1
      · simp [skPat] at hnil
      rcases subseg_pred_cons_block (P := fun ch => isTok ch = true) hB1 htokw (by decide)
        with hnil | hB2
      · simp [skPat] at hnil
      rcases subseg_pred_cons_block (P := fun ch => isTok ch = true) hB2 htokw (by decide)
        with hnil | hB3
      · simp [skPat] at hnil
      rcases subseg_pred_cons_block (P := fun ch => isTok ch = true) hB3 htokw (by decide)
        with hnil | hB4
      · simp [skPat] at hnil
      rcases subseg_pred_cons_block (P := fun ch => isTok ch = true) hB4 htokw (by decide)
        with hnil | hB5
      · simp [skPat] at hnil
      rcases subseg_pred_cons_block (P := fun ch => isTok ch = true) hB5 htokw (by decide)
        with hnil | hB6
      · simp [skPat] at hnil
      rcases subseg_pred_cons_block (P := fun ch => isTok ch = true) hB6 htokw (by decide)
        with hnil | hB7
      · simp [skPat] at hnil
      exact ih ⟨t, hlen, hal, hB7⟩
    · have hmem := preseg_cons_mem hpre hp
      exact absurd (htokw '*' (by rw [hw_eq]; exact List.mem_append.mpr (Or.inr hmem)))
        (by decide)
  | case3 c cs hcond ih =>
    rintro ⟨t, hlen, hal, hsub⟩
    rw [rule1, if_neg hcond] at hsub
    have h2 : SubSeg (skPat ++ t) ([c] ++ rule1 cs) := by simpa using hsub
    rcases subseg_append_cases h2 with hA | hR | ⟨s, p, hs, hp, hw_eq, hsuf, hpre⟩
    · have hlenle := subseg_length_le hA
      simp only [skPat, List.length_append, List.length_cons, List.length_nil, hlen] at hlenle
      omega
    · exact ih ⟨t, hlen, hal, hR⟩
    · have hse : s = [c] := sufseg_singleton hsuf hs
      rw [hse] at hw_eq
      simp only [skPat, List.cons_append, List.nil_append] at hw_eq
      injection hw_eq with hc hp_eq
      subst hc
      rw [← hp_eq] at hpre
      obtain ⟨v, hv⟩ := hpre
      simp only [List.cons_append] at hv
      obtain ⟨cs1, hcs1, hz1⟩ := rule1_cons_inv hv (by decide)
      obtain ⟨cs2, hcs2, hz2⟩ := rule1_cons_inv hz1.symm (by decide)
      have htw : 20 ≤ ((rule1 cs2).takeWhile isAl).length := by
        have hle := preseg_all_takeWhile (p := isAl) ⟨v, hz2.symm⟩ hal
        omega
      have htw2 : 20 ≤ (cs2.takeWhile isAl).length :=
        le_trans htw (takeWhile_al_rule1_le cs2)
      subst hcs1
      subst hcs2
      exact hcond ⟨by simp [skPat], by simpa using htw2⟩

theorem preseg_wsp_rule2 {u : List Char} (q : List Char) :
    ∀ y, allWsp u → PreSeg (u ++ q) (rule2 y) → ∃ y2, y = u ++ y2 ∧ PreSeg q (rule2 y2) := by
  induction u with
  | nil =>
    intro y hwsp h
    exact ⟨y, by simp, by simpa using h⟩
  | cons d u2 ihu =>
    intro y hwsp h
    obtain ⟨v, hv⟩ := h
    simp only [List.cons_append] at hv
    have hd : d ≠ 'B' := by
      intro hdB
      have hdw := hwsp d (by simp)
      rw [hdB] at hdw
      exact absurd hdw (by decide)
    obtain ⟨y1, hy1, hz⟩ := rule2_cons_inv hv hd
    obtain ⟨y2, hy2, hq⟩ := ihu y1 (fun ch hm => hwsp ch (by simp [hm])) ⟨v, by rw [← hz]⟩
    exact ⟨y2, by rw [hy1, hy2]; simp, hq⟩

theorem rule2_est (x : List Char) : P2 (rule2 x) := by
  induction x using rule2.induct with
  | case1 =>
    rintro ⟨u, t, hu, hwsp, hlen, htok, hsub⟩
    rw [rule2] at hsub
    have := subseg_nil hsub
    simp [bearerLit] at this
  | case2 c cs hcond ih =>
    rintro ⟨u, t, hu, hwsp, hlen, htok, hsub⟩
    rw [rule2, if_pos hcond] at hsub
    obtain ⟨r, rfl, rfl, hdrop⟩ := bearer_match_shape hcond.1
    rw [hdrop] at hsub
    have hmask : bearerMask ++ rule2 ((r.dropWhile isWsp).dropWhile isTok) =
        ('B' :: 'e' :: 'a' :: 'r' :: 'e' :: 'r' :: ' ' :: []) ++
          ('*' :: '*' :: '*' :: '*' :: '.' :: '.' :: '.' ::
            rule2 ((r.dropWhile isWsp).dropWhile isTok)) := by
      simp [bearerMask]
    rw [hmask] at hsub
    have hPw : ∀ ch ∈ bearerLit ++ (u ++ t), (isTok ch = true ∨ isWsp ch = true) := by
      intro ch hc
      rcases List.mem_append.mp hc with h1 | h2
      · left
        simp only [bearerLit, List.mem_cons, List.not_mem_nil, or_false] at h1
        rcases h1 with rfl | rfl | rfl | rfl | rfl | rfl <;> decide
      · rcases List.mem_append.mp h2 with h3 | h4
        · right
          exact hwsp ch h3
        · left
          exact htok ch h4
    rcases subseg_append_cases hsub with hA | hB | ⟨s, p, hs, hp, hw_eq, hsuf, hpre⟩
    · have hlenle := subseg_length_le hA
      simp only [bearerLit, List.length_append, List.length_cons, List.length_nil,
        hlen] at hlenle
      omega
    · rcases subseg_pred_cons_block (P := fun ch => isTok ch = true ∨ isWsp ch = true)
          hB hPw (by decide) with hnil | hB1
      · simp [bearerLit] at hnil
      rcases subseg_pred_cons_block (P := fun ch => isTok ch = true ∨ isWsp ch = true)
          hB1 hPw (by decide) with hnil | hB2
      · simp [bearerLit] at hnil
      rcases subseg_pred_cons_block (P := fun ch => isTok ch = true ∨ isWsp ch = true)
          hB2 hPw (by decide) with hnil | hB3
      · simp [bearerLit] at hnil
      rcases subseg_pred_cons_block (P := fun ch => isTok ch = true ∨ isWsp ch = true)
          hB3 hPw (by decide) with hnil | hB4
      · simp [bearerLit] at hnil
      rcases subseg_pred_cons_block (P := fun ch => isTok ch = true ∨ isWsp ch = true)
          hB4 hPw (by decide) with hnil | hB5
      · simp [bearerLit] at hnil
      rcases subseg_pred_cons_block (P := fun ch => isTok ch = true ∨ isWsp ch = true)
          hB5 hPw (by decide) with hnil | hB6
      · simp [bearerLit] at hnil
      rcases subseg_pred_cons_block (P := fun ch => isTok ch = true ∨ isWsp ch = true)
          hB6 hPw (by decide) with hnil | hB7
      · simp [bearerLit] at hnil
      exact ih ⟨u, t, hu, hwsp, hlen, htok, hB7⟩
    · have hmem := preseg_cons_mem hpre hp
      exact absurd (hPw '*' (by rw [hw_eq]; exact List.mem_append.mpr (Or.inr hmem)))
        (by decide)
  | case3 c cs hcond ih =>
    rintro ⟨u, t, hu, hwsp, hlen, htok, hsub⟩
    rw [rule2, if_neg hcond] at hsub
    have h2 : SubSeg (bearerLit ++ (u ++ t)) ([c] ++ rule2 cs) := by simpa using hsub
    rcases subseg_append_cases h2 with hA | hR | ⟨s, p, hs, hp, hw_eq, hsuf, hpre⟩
    · have hlenle := subseg_length_le hA
      simp only [bearerLit, List.length_append, List.length_cons, List.length_nil,
        hlen] at hlenle
      omega
    · exact ih ⟨u, t, hu, hwsp, hlen, htok, hR⟩
    · have hse : s = [c] := sufseg_singleton hsuf hs
      rw [hse] at hw_eq
      simp only [bearerLit, List.cons_append, List.nil_append] at hw_eq
      injection hw_eq with hc hp_eq
      subst hc
      rw [← hp_eq] at hpre
      obtain ⟨v, hv⟩ := hpre
      simp only [List.cons_append] at hv
      obtain ⟨cs1, hcs1, hz1⟩ := rule2_cons_inv hv (by decide)
      obtain ⟨cs2, hcs2, hz2⟩ := rule2_cons_inv hz1.symm (by decide)
      obtain ⟨cs3, hcs3, hz3⟩ := rule2_cons_inv hz2.symm (by decide)
      obtain ⟨cs4, hcs4, hz4⟩ := rule2_cons_inv hz3.symm (by decide)
      obtain ⟨cs5, hcs5, hz5⟩ := rule2_cons_inv hz4.symm (by decide)
      have hpre2 : PreSeg (u ++ t) (rule2 cs5) := ⟨v, by rw [← hz5]⟩
      obtain ⟨y2, hy2, hq⟩ := preseg_wsp_rule2 t cs5 hwsp hpre2
      have htp : 20 ≤ ((rule2 y2).takeWhile isTok).length := by
        have hle := preseg_all_takeWhile (p := isTok) hq htok
        omega
      have htp2 : 20 ≤ (y2.takeWhile isTok).length := le_trans htp (takeWhile_tok_rule2_le y2)
      obtain ⟨e, y3, hy3, he⟩ := takeWhile_pos_head (l := y2) (p := isTok) (by omega)
      subst hcs1
      subst hcs2
      subst hcs3
      subst hcs4
      subst hcs5
      subst hy2
      subst hy3
      refine hcond ⟨by simp [bearerLit], ?_, ?_⟩
      · simp only [List.drop_succ_cons, List.drop_zero]
        rw [List.takeWhile_append_of_pos hwsp]
        have hupos := List.length_pos.mpr hu
        simp only [List.length_append]
        omega
      · simp only [List.drop_succ_cons, List.drop_zero]
        rw [List.dropWhile_append_of_pos hwsp,
          List.dropWhile_cons_of_neg (by simp [tok_not_wsp he])]
        exact htp2

theorem rule1_fixed (x : List Char) : P1 x → rule1 x = x := by
  induction x using rule1.induct with
  | case1 =>
    intro h
    rw [rule1]
  | case2 c cs hcond ih =>
    intro hP
    exfalso
    obtain ⟨r, rfl, rfl, hdrop⟩ := sk_match_shape hcond.1
    have h20 := hcond.2
    rw [hdrop] at h20
    apply hP
    refine ⟨(r.takeWhile isAl).take 20, ?_, ?_, ?_⟩
    · simp only [List.length_take]
      omega
    · exact fun ch hc => List.mem_takeWhile_imp (List.take_subset _ _ hc)
    · refine ⟨[], (r.takeWhile isAl).drop 20 ++ r.dropWhile isAl, ?_⟩
      simp only [skPat, List.cons_append, List.nil_append, List.cons.injEq, true_and]
      rw [← List.append_assoc, List.take_append_drop, List.takeWhile_append_dropWhile]
  | case3 c cs hcond ih =>
    intro hP
    rw [rule1, if_neg hcond]
    have hPcs : P1 cs := by
      rintro ⟨t, hlen, hal, hsub⟩
      exact hP ⟨t, hlen, hal, subseg_cons_of hsub⟩
    rw [ih hPcs]

theorem rule2_fixed (x : List Char) : P2 x → rule2 x = x := by
  induction x using rule2.induct with
  | case1 =>
    intro h
    rw [rule2]
  | case2 c cs hcond ih =>
    intro hP
    exfalso
    obtain ⟨r, rfl, rfl, hdrop⟩ := bearer_match_shape hcond.1
    have hws := hcond.2.1
    have htk := hcond.2.2
    rw [hdrop] at hws
    rw [hdrop] at htk
    apply hP
    refine ⟨r.takeWhile isWsp, ((r.dropWhile isWsp).takeWhile isTok).take 20, ?_, ?_, ?_, ?_, ?_⟩
    · exact List.length_pos.mp (by omega)
    · exact fun ch hc => List.mem_takeWhile_imp hc
    · simp only [List.length_take]
      omega
    · exact fun ch hc => List.mem_takeWhile_imp (List.take_subset _ _ hc)
    · refine ⟨[], ((r.dropWhile isWsp).takeWhile isTok).drop 20 ++
        (r.dropWhile isWsp).dropWhile isTok, ?_⟩
      simp only [bearerLit, List.cons_append, List.nil_append, List.cons.injEq, true_and,
        List.append_assoc]
      rw [← List.append_assoc (((r.dropWhile isWsp).takeWhile isTok).take 20),
        List.take_append_drop, List.takeWhile_append_dropWhile,
        List.takeWhile_append_dropWhile]
  | case3 c cs hcond ih =>
    intro hP
    rw [rule2, if_neg hcond]
    have hPcs : P2 cs := by
      rintro ⟨u, t, hu, hwsp, hlen, htok, hsub⟩
      exact hP ⟨u, t, hu, hwsp, hlen, htok, subseg_cons_of hsub⟩
    rw [ih hPcs]

theorem rule3_fixed (x : List Char) : P3 x → rule3 x = x := by
  induction x using rule3.induct with
  | case1 =>
    intro h
    rw [rule3]
  | case2 c cs h1 h2 ih =>
    intro hP
    exfalso
    have hrun : SubSeg (c :: cs.takeWhile isTok) (c :: cs) := ⟨[], cs.dropWhile isTok, by simp⟩
    have htok : allTok (c :: cs.takeWhile isTok) := by
      intro ch hc
      rcases List.mem_cons.mp hc with rfl | hm
      · exact h1
      · exact List.mem_takeWhile_imp hm
    have := hP _ hrun htok
    omega
  | case3 c cs h1 h2 ih =>
    intro hP
    rw [rule3, if_pos h1, if_neg h2]
    have hPrest : P3 (cs.dropWhile isTok) := by
      intro w hsub htokw
      exact hP w (subseg_trans hsub ⟨c :: cs.takeWhile isTok, [], by simp⟩) htokw
    rw [ih hPrest]
    simp
  | case4 c cs h1 ih =>
    intro hP
    rw [rule3, if_neg h1]
    have hPcs : P3 cs := fun w hsub htokw => hP w (subseg_cons_of hsub) htokw
    rw [ih hPcs]

theorem sk_window_alltok {t : List Char} (hal : allAl t) : allTok (skPat ++ t) := by
  intro ch hc
  rcases List.mem_append.mp hc with h1 | h2
  · simp only [skPat, List.mem_cons, List.not_mem_nil, or_false] at h1
    rcases h1 with rfl | rfl | rfl <;> decide
  · exact altok_of_alal hal ch h2

theorem sk_window_nostar {t : List Char} (hal : allAl t) : noStar (skPat ++ t) := by
  intro hc
  rcases List.mem_append.mp hc with h1 | h2
  · simp [skPat] at h1
  · exact allal_no_star hal h2

theorem bearer_window_nostar {u t : List Char} (hwsp : allWsp u) (htok : allTok t) :
    noStar (bearerLit ++ (u ++ t)) := by
  intro hc
  rcases List.mem_append.mp hc with h1 | h2
  · simp [bearerLit] at h1
  · rcases List.mem_append.mp h2 with h3 | h4
    · exact allwsp_no_star hwsp h3
    · exact alltok_no_star htok h4

theorem rule2_preserves_P1 {x : List Char} (h : P1 x) : P1 (rule2 x) := by
  rintro ⟨t, hlen, hal, hsub⟩
  exact h ⟨t, hlen, hal, subseg_rule2_alltok x _ (sk_window_alltok hal) hsub⟩

theorem rule3_preserves_P1 {x : List Char} (h : P1 x) : P1 (rule3 x) := by
  rintro ⟨t, hlen, hal, hsub⟩
  exact h ⟨t, hlen, hal, subseg_rule3_nostar x _ (sk_window_nostar hal) hsub⟩

theorem rule3_preserves_P2 {x : List Char} (h : P2 x) : P2 (rule3 x) := by
  rintro ⟨u, t, hu, hwsp, hlen, htok, hsub⟩
  exact h ⟨u, t, hu, hwsp, hlen, htok,
    subseg_rule3_nostar x _ (bearer_window_nostar hwsp htok) hsub⟩

theorem redact_ai_idem (l : List Char) :
    rule3 (rule2 (rule1 (rule3 (rule2 (rule1 l))))) = rule3 (rule2 (rule1 l)) := by
  have p1 : P1 (rule3 (rule2 (rule1 l))) :=
    rule3_preserves_P1 (rule2_preserves_P1 (rule1_est l))
  have p2 : P2 (rule3 (rule2 (rule1 l))) := rule3_preserves_P2 (rule2_est (rule1 l))
  have p3 : P3 (rule3 (rule2 (rule1 l))) := rule3_bounds _
  rw [rule1_fixed _ p1, rule2_fixed _ p2, rule3_fixed _ p3]

theorem redact_cfg_idem (l : List Char) :
    rule3 (rule1 (rule3 (rule1 l))) = rule3 (rule1 l) := by
  have p1 : P1 (rule3 (rule1 l)) := rule3_preserves_P1 (rule1_est l)
  have p3 : P3 (rule3 (rule1 l)) := rule3_bounds _
  rw [rule1_fixed _ p1, rule3_fixed _ p3]

/-- C2: redaction is idempotent (for both the `AIClient` and the
`ConfigManager` redactors): redacting already-redacted text is a no-op.
And for every input containing a 30-character alphanumeric token, the
redacted output never contains that original token as a contiguous
substring (its occurrence, being 30 > 6 characters long, cannot survive:
every contiguous token-character run in the output has length at most
23). -/
theorem redaction_idempotent_and_hides :
    (∀ s : String,
      AIClient_redact_secrets (AIClient_redact_secrets s) = AIClient_redact_secrets s) ∧
    (∀ s : String,
      ConfigManager_redact_secrets (ConfigManager_redact_secrets s) =
        ConfigManager_redact_secrets s) ∧
    (∀ s T : String, T.data.length = 30 → allAl T.data → SubSeg T.data s.data →
      ¬ SubSeg T.data (AIClient_redact_secrets s).data) ∧
    (∀ s T : String, T.data.length = 30 → allAl T.data → SubSeg T.data s.data →
      ¬ SubSeg T.data (ConfigManager_redact_secrets s).data) := by
  refine ⟨?_, ?_, ?_, ?_⟩
  · intro s
    exact congrArg String.mk (redact_ai_idem s.data)
  · intro s
    exact congrArg String.mk (redact_cfg_idem s.data)
  · intro s T hlen hal hsub hcontra
    have hb := rule3_bounds (rule2 (rule1 s.data)) T.data hcontra (altok_of_alal hal)
    omega
  · intro s T hlen hal hsub hcontra
    have hb := rule3_bounds (rule1 s.data) T.data hcontra (altok_of_alal hal)
    omega

/-- Witness for C2 at the 30-character token `aaaaaaaaaaaaaaaaaaaaaaaaaaaaaa`
appearing as the whole input. -/
theorem redaction_witness :
    ¬ SubSeg (String.data "aaaaaaaaaaaaaaaaaaaaaaaaaaaaaa")
      (AIClient_redact_secrets "aaaaaaaaaaaaaaaaaaaaaaaaaaaaaa").data :=
  redaction_idempotent_and_hides.2.2.1 "aaaaaaaaaaaaaaaaaaaaaaaaaaaaaa"
    "aaaaaaaaaaaaaaaaaaaaaaaaaaaaaa" (by decide)
    (by show ∀ c ∈ String.data "aaaaaaaaaaaaaaaaaaaaaaaaaaaaaa", isAl c = true
        decide)
    ⟨[], [], by simp⟩
